import Mathlib

/-!
Verification of the workflow-definition service (`task.py`).

The service stores workflows, steps and dependency edges, validates
mutations, and computes an execution order with Kahn's algorithm.  The
definitions below are a shallow embedding of the handlers
`create_workflow`, `add_step`, `add_dependency` and
`get_execution_order`; each mutation returns the outcome together with
the committed database state (errors raise before any `db.add`, so the
state is returned unchanged on every error path).
-/

namespace WorkflowApi

/-- Row of the `workflows` table. -/
structure Workflow where
  id : Nat
  workflow_str_id : String
  name : String
deriving Repr, DecidableEq

/-- Row of the `steps` table. -/
structure Step where
  id : Nat
  step_str_id : String
  description : Option String
  workflow_id : Nat
deriving Repr, DecidableEq

/-- Row of the `dependencies` table: `prerequisite` must run before `step`. -/
structure Dependency where
  id : Nat
  step_id : Nat
  prerequisite_id : Nat
deriving Repr, DecidableEq

/-- Database state: the three tables (in insertion order, as sqlite returns
them) plus the autoincrement counters for the integer primary keys. -/
structure DB where
  workflows : List Workflow
  steps : List Step
  deps : List Dependency
  nextWorkflowId : Nat
  nextStepId : Nat
  nextDepId : Nat
deriving Repr, DecidableEq

/-- The typed failures surfaced by the handlers (spec section 7). -/
inductive ApiError where
  | workflowAlreadyExists
  | workflowNotFound
  | stepAlreadyExists
  | selfDependency
  | stepNotFound
  | dependencyExists
  | cycleDetected
deriving Repr, DecidableEq

/-- `db.query(Workflow).filter(Workflow.workflow_str_id == wid).first()` -/
def findWorkflow (db : DB) (wid : String) : Option Workflow :=
  db.workflows.find? (fun w => decide (w.workflow_str_id = wid))

/-- `db.query(Step).filter(Step.workflow_id == wfId, Step.step_str_id == sid).first()` -/
def findStep (db : DB) (wfId : Nat) (sid : String) : Option Step :=
  db.steps.find? (fun s => decide (s.workflow_id = wfId) && decide (s.step_str_id = sid))

/-- `db.query(Dependency).filter(Dependency.step_id == i, Dependency.prerequisite_id == j).first()` -/
def findDep (db : DB) (stepId prereqId : Nat) : Option Dependency :=
  db.deps.find? (fun d => decide (d.step_id = stepId) && decide (d.prerequisite_id = prereqId))

/-- Resolve a `steps.id` primary key to its row (SQLAlchemy relationship lookup). -/
def stepById (db : DB) (i : Nat) : Option Step :=
  db.steps.find? (fun s => decide (s.id = i))

/-- Handler `create_workflow`: reject a duplicate `workflow_str_id`,
otherwise commit the new row.  Returns `(internal_db_id, workflow_str_id,
status)` on success, paired with the database state after the call. -/
def create_workflow (db : DB) (wid nm : String) :
    Except ApiError (Nat × String × String) × DB :=
  match findWorkflow db wid with
  | some _ => (.error .workflowAlreadyExists, db)
  | none =>
    let wf : Workflow := { id := db.nextWorkflowId, workflow_str_id := wid, name := nm }
    (.ok (wf.id, wf.workflow_str_id, "created"),
      { db with workflows := db.workflows ++ [wf], nextWorkflowId := db.nextWorkflowId + 1 })

/-- Handler `add_step`: workflow must exist, step id must be fresh in it. -/
def add_step (db : DB) (wid sid : String) (descr : Option String) :
    Except ApiError (Nat × String × String) × DB :=
  match findWorkflow db wid with
  | none => (.error .workflowNotFound, db)
  | some wf =>
    match findStep db wf.id sid with
    | some _ => (.error .stepAlreadyExists, db)
    | none =>
      let st : Step :=
        { id := db.nextStepId, step_str_id := sid, description := descr, workflow_id := wf.id }
      (.ok (st.id, st.step_str_id, "step_added"),
        { db with steps := db.steps ++ [st], nextStepId := db.nextStepId + 1 })

/-- Handler `add_dependency`: checks, in order, workflow existence,
self-dependency (by string comparison), endpoint existence, duplicate
edge; commits the edge otherwise. -/
def add_dependency (db : DB) (wid s p : String) : Except ApiError String × DB :=
  match findWorkflow db wid with
  | none => (.error .workflowNotFound, db)
  | some wf =>
    if s = p then (.error .selfDependency, db)
    else
      match findStep db wf.id s, findStep db wf.id p with
      | some st, some pr =>
        match findDep db st.id pr.id with
        | some _ => (.error .dependencyExists, db)
        | none =>
          let d : Dependency := { id := db.nextDepId, step_id := st.id, prerequisite_id := pr.id }
          (.ok "dependency_added", { db with deps := db.deps ++ [d], nextDepId := db.nextDepId + 1 })
      | _, _ => (.error .stepNotFound, db)

/-- `wf.steps`: the workflow's steps, in insertion order. -/
def wfSteps (db : DB) (wf : Workflow) : List Step :=
  db.steps.filter (fun s => decide (s.workflow_id = wf.id))

/-- `step.prerequisites`: the dependency rows whose dependent is `st`. -/
def stepPrereqDeps (db : DB) (st : Step) : List Dependency :=
  db.deps.filter (fun d => decide (d.step_id = st.id))

/-- The `(src, dst)` string edges contributed by one step of the loop
`for dep in step.prerequisites: graph[src].append(dst)`, where
`src = dep.prerequisite.step_str_id` and `dst = dep.step.step_str_id = st.step_str_id`. -/
def edgesOfStep (db : DB) (st : Step) : List (String × String) :=
  (stepPrereqDeps db st).filterMap
    (fun d => (stepById db d.prerequisite_id).map (fun p => (p.step_str_id, st.step_str_id)))

/-- Accumulate the edges of a list of steps, in iteration order. -/
def edgesFromSteps (db : DB) : List Step → List (String × String)
  | [] => []
  | st :: rest => edgesOfStep db st ++ edgesFromSteps db rest

/-- The projected dependency graph of a workflow, as the list of directed
string edges `(prerequisite, dependent)` in the order the handler's nested
loop visits them. -/
def buildEdges (db : DB) (wf : Workflow) : List (String × String) :=
  edgesFromSteps db (wfSteps db wf)

/-- The step string ids of a workflow, in insertion order (the keys of the
`steps` dict built by the handler). -/
def stepIdsOf (db : DB) (wf : Workflow) : List String :=
  (wfSteps db wf).map (fun s => s.step_str_id)

/-- Initial in-degree of `v`: the number of edges pointing at `v`. -/
def indeg0 (edges : List (String × String)) (v : String) : Int :=
  (edges.countP (fun e => decide (e.2 = v)) : Int)

/-- `graph[v]`: out-neighbours of `v`, in edge order. -/
def adj (edges : List (String × String)) (v : String) : List String :=
  (edges.filter (fun e => decide (e.1 = v))).map (fun e => e.2)

/-- In-degree of `v` counting only edges whose source has not been emitted
yet; this is the value the running `in_degree[v]` holds during the loop. -/
def edgesInto (edges : List (String × String)) (order : List String) (v : String) : Int :=
  (edges.countP (fun e => decide (e.2 = v) && decide (e.1 ∉ order)) : Int)

/-- The inner loop of Kahn's algorithm: for each neighbour of the popped
node, decrement its in-degree and append it to the queue if it reached
zero. -/
def processNode : List String → List String → (String → Int) → List String × (String → Int)
  | [], queue, indeg => (queue, indeg)
  | nb :: rest, queue, indeg =>
    let d := indeg nb - 1
    processNode rest (if d = 0 then queue ++ [nb] else queue)
      (fun x => if x = nb then d else indeg x)

/-- The `while queue:` loop: pop the front of the queue, append it to the
output, process its neighbours.  The fuel is an upper bound on the number
of iterations; `get_execution_order` passes the step count, which the
invariant proofs below show is never exhausted with a nonempty queue. -/
def kahnLoop (edges : List (String × String)) :
    Nat → List String → (String → Int) → List String → List String
  | 0, _, _, order => order
  | _ + 1, [], _, order => order
  | fuel + 1, node :: rest, indeg, order =>
    let pr := processNode (adj edges node) rest indeg
    kahnLoop edges fuel pr.1 pr.2 (order ++ [node])

/-- Kahn's algorithm over a node list (in insertion order) and an edge
list: seed the queue with the in-degree-zero nodes in node order, then run
the loop. -/
def execOrder (nodes : List String) (edges : List (String × String)) : List String :=
  kahnLoop edges nodes.length
    (nodes.filter (fun v => decide (indeg0 edges v = 0))) (indeg0 edges) []

/-- Handler `get_execution_order`: project the graph, run Kahn's
algorithm, and report `cycleDetected` unless every step was emitted. -/
def get_execution_order (db : DB) (wid : String) : Except ApiError (List String) :=
  match findWorkflow db wid with
  | none => .error .workflowNotFound
  | some wf =>
    let ord := execOrder (stepIdsOf db wf) (buildEdges db wf)
    if ord.length = (stepIdsOf db wf).length then .ok ord else .error .cycleDetected

/-- Referential invariant on stored edges: both endpoints exist as steps
and belong to the same workflow (spec section 3). -/
def DepInv (db : DB) : Prop :=
  ∀ d ∈ db.deps, ∃ s ∈ db.steps, ∃ p ∈ db.steps,
    s.id = d.step_id ∧ p.id = d.prerequisite_id ∧ s.workflow_id = p.workflow_id

instance (db : DB) : Decidable (DepInv db) := by
  unfold DepInv; exact inferInstance

/-- The store's declared uniqueness constraints (primary key on `steps.id`,
`UniqueConstraint(step_str_id, workflow_id)`,
`UniqueConstraint(step_id, prerequisite_id)`) together with `DepInv`. -/
def StoreInv (db : DB) : Prop :=
  (db.steps.map (fun s => s.id)).Nodup ∧
  (db.steps.map (fun s => (s.step_str_id, s.workflow_id))).Nodup ∧
  (db.deps.map (fun d => (d.step_id, d.prerequisite_id))).Nodup ∧
  DepInv db

instance (db : DB) : Decidable (StoreInv db) := by
  unfold StoreInv; exact inferInstance

/-- Edge relation of a projected graph. -/
def edgeRel (edges : List (String × String)) (a b : String) : Prop := (a, b) ∈ edges

/-! Concrete states, built by running the handlers, used as witnesses. -/

/-- The empty database (fresh sqlite file). -/
def db0 : DB := ⟨[], [], [], 1, 1, 1⟩

/-- One workflow `w`, no steps. -/
def dbW : DB := (create_workflow db0 "w" "N").2

/-- Workflow `w` with steps `a` then `b`, no edges. -/
def dbAB : DB := (add_step (add_step dbW "w" "a" none).2 "w" "b" none).2

/-- Workflow `w` with steps `a`, `b` and the edge recording that `b`
depends on `a`. -/
def dbBA : DB := (add_dependency dbAB "w" "b" "a").2

/-- Workflow `w` with the 2-cycle: `b` depends on `a` and `a` depends on `b`. -/
def dbCyc : DB := (add_dependency dbBA "w" "a" "b").2

/-- The workflow row created in `dbW`. -/
def wfW : Workflow := ⟨1, "w", "N"⟩

/-- The step rows created in `dbAB`. -/
def stA : Step := ⟨1, "a", none, 1⟩

/-- Second step row of `dbAB`. -/
def stB : Step := ⟨2, "b", none, 1⟩

/-- `dbBA` plus an unrelated second workflow `x`: workflow `w` projects to
the same step list and edge list as in `dbBA`. -/
def dbX : DB := (create_workflow dbBA "x" "M").2

/-- The dependency row created in `dbBA`. -/
def depBA : Dependency := ⟨1, 2, 1⟩

/-- Loop invariant of Kahn's algorithm, relating the queue, the running
in-degree table and the emitted order to the node and edge lists:
emitted-or-queued nodes are distinct nodes of the graph, `indeg v` counts
the edges into `v` from sources not yet emitted, queued nodes have
in-degree zero, unqueued unprocessed nodes have nonzero in-degree, every
edge whose target was emitted had its source emitted earlier, and emitted
nodes have nonpositive in-degree. -/
structure KInv (nodes : List String) (edges : List (String × String))
    (queue : List String) (indeg : String → Int) (order : List String) : Prop where
  nodup : (order ++ queue).Nodup
  subset : ∀ v ∈ order ++ queue, v ∈ nodes
  deg : ∀ v, indeg v = edgesInto edges order v
  qzero : ∀ v ∈ queue, indeg v = 0
  pend : ∀ v ∈ nodes, v ∉ order → v ∉ queue → indeg v ≠ 0
  emitted : ∀ e ∈ edges, e.2 ∈ order → e.1 ∈ order ∧ order.indexOf e.1 < order.indexOf e.2
  used : ∀ v ∈ order, indeg v ≤ 0

/-! ### Basic lemmas about the store lookups -/

theorem find?_append_of_none {α : Type} {p : α → Bool} {l1 l2 : List α}
    (h : l1.find? p = none) : (l1 ++ l2).find? p = l2.find? p := by
  simp [List.find?_append, h]

theorem findStep_workflow_id {db : DB} {wfId : Nat} {sid : String} {st : Step}
    (h : findStep db wfId sid = some st) :
    st ∈ db.steps ∧ st.workflow_id = wfId ∧ st.step_str_id = sid := by
  refine ⟨List.mem_of_find?_eq_some h, ?_, ?_⟩ <;>
    have := List.find?_some h <;> simp at this <;> simp [this]

theorem stepById_spec {db : DB} {i : Nat} {st : Step}
    (h : stepById db i = some st) : st ∈ db.steps ∧ st.id = i := by
  refine ⟨List.mem_of_find?_eq_some h, ?_⟩
  have := List.find?_some h
  simpa using this

/-! ### C5: validation order of add_dependency -/

/-- C5: for every AddDependency request the checks run in the order
workflow existence, self-dependency, endpoint existence, duplicate edge,
and the first failing check determines the returned error, the remaining
checks being skipped (each later conjunct holds whatever the state of the
later conditions). -/
theorem C5_validation_order (db : DB) (wid s p : String) :
    (findWorkflow db wid = none →
      add_dependency db wid s p = (.error .workflowNotFound, db)) ∧
    (∀ wf, findWorkflow db wid = some wf → s = p →
      add_dependency db wid s p = (.error .selfDependency, db)) ∧
    (∀ wf, findWorkflow db wid = some wf → s ≠ p →
      (findStep db wf.id s = none ∨ findStep db wf.id p = none) →
      add_dependency db wid s p = (.error .stepNotFound, db)) ∧
    (∀ wf st pr d, findWorkflow db wid = some wf → s ≠ p →
      findStep db wf.id s = some st → findStep db wf.id p = some pr →
      findDep db st.id pr.id = some d →
      add_dependency db wid s p = (.error .dependencyExists, db)) := by
  refine ⟨fun h => by simp [add_dependency, h], fun wf hwf hsp => by simp [add_dependency, hwf, hsp],
    fun wf hwf hsp hmiss => ?_, fun wf st pr d hwf hsp hst hpr hdep => by
      simp [add_dependency, hwf, hsp, hst, hpr, hdep]⟩
  rcases hmiss with h | h
  · cases hpr : findStep db wf.id p <;> simp [add_dependency, hwf, hsp, h, hpr]
  · cases hst : findStep db wf.id s <;> simp [add_dependency, hwf, hsp, h, hst]

/-- Witness for C5: each of the four outcomes on a concrete store. -/
theorem C5_validation_order_witness :
    add_dependency db0 "w" "a" "b" = (.error .workflowNotFound, db0) ∧
    add_dependency dbW "w" "a" "a" = (.error .selfDependency, dbW) ∧
    add_dependency dbW "w" "a" "b" = (.error .stepNotFound, dbW) ∧
    add_dependency dbBA "w" "b" "a" = (.error .dependencyExists, dbBA) :=
  ⟨(C5_validation_order db0 "w" "a" "b").1 rfl,
    (C5_validation_order dbW "w" "a" "a").2.1 wfW rfl rfl,
    (C5_validation_order dbW "w" "a" "b").2.2.1 wfW rfl (by decide) (Or.inl rfl),
    (C5_validation_order dbBA "w" "b" "a").2.2.2 wfW stB stA depBA rfl (by decide) rfl rfl rfl⟩

/-! ### C6: self-dependency is rejected before any step lookup -/

/-- C6: whenever the target workflow exists, requesting a dependency of a
step identifier on itself fails with SelfDependency, whether or not a step
with that identifier exists: the two identifiers are compared by value
before any step lookup. -/
theorem C6_self_dependency (db : DB) (wid s : String) (wf : Workflow)
    (hwf : findWorkflow db wid = some wf) :
    add_dependency db wid s s = (.error .selfDependency, db) := by
  simp [add_dependency, hwf]

/-- Witness for C6: the step identifier `zzz` does not exist in `dbW` at
all, yet the request fails with SelfDependency. -/
theorem C6_self_dependency_witness :
    add_dependency dbW "w" "zzz" "zzz" = (.error .selfDependency, dbW) :=
  C6_self_dependency dbW "w" "zzz" wfW rfl

/-! ### C10: a workflow with no steps yields the empty order -/

/-- C10: for every existing workflow with zero steps the execution-order
query succeeds and returns the empty sequence. -/
theorem C10_empty_workflow (db : DB) (wid : String) (wf : Workflow)
    (hwf : findWorkflow db wid = some wf) (hsteps : wfSteps db wf = []) :
    get_execution_order db wid = .ok [] := by
  simp [get_execution_order, hwf, stepIdsOf, buildEdges, hsteps, execOrder, edgesFromSteps,
    kahnLoop]

/-- Witness for C10: `dbW` holds workflow `w` with no steps. -/
theorem C10_empty_workflow_witness : get_execution_order dbW "w" = .ok [] :=
  C10_empty_workflow dbW "w" wfW rfl rfl

/-! ### C3: FIFO frontier in step-insertion order, deterministic output -/

/-- C3: the loop pops the front of the queue and appends newly freed steps
at the back (first conjunct), the frontier is seeded from the steps in the
order they were added to the workflow (second conjunct), and the answer is
a function of that insertion-ordered step list and edge list alone, so two
queries against the same unchanged workflow data return the identical
sequence (third conjunct). -/
theorem C3_fifo_deterministic :
    (∀ (edges : List (String × String)) (fuel : Nat) (node : String) (rest : List String)
        (indeg : String → Int) (order : List String),
        kahnLoop edges (fuel + 1) (node :: rest) indeg order =
          kahnLoop edges fuel (processNode (adj edges node) rest indeg).1
            (processNode (adj edges node) rest indeg).2 (order ++ [node])) ∧
    (∀ (nodes : List String) (edges : List (String × String)),
        execOrder nodes edges =
          kahnLoop edges nodes.length (nodes.filter (fun v => decide (indeg0 edges v = 0)))
            (indeg0 edges) []) ∧
    (∀ (db1 db2 : DB) (wid1 wid2 : String) (wf1 wf2 : Workflow),
        findWorkflow db1 wid1 = some wf1 → findWorkflow db2 wid2 = some wf2 →
        stepIdsOf db1 wf1 = stepIdsOf db2 wf2 → buildEdges db1 wf1 = buildEdges db2 wf2 →
        get_execution_order db1 wid1 = get_execution_order db2 wid2) :=
  ⟨fun _ _ _ _ _ _ => rfl, fun _ _ => rfl,
    fun _ _ _ _ _ _ h1 h2 hs he => by simp [get_execution_order, h1, h2, hs, he]⟩

/-- Witness for C3: `dbX` extends `dbBA` with an unrelated workflow;
workflow `w` projects to the same data, so the query answers agree. -/
theorem C3_fifo_deterministic_witness :
    get_execution_order dbX "w" = get_execution_order dbBA "w" :=
  C3_fifo_deterministic.2.2 dbX dbBA "w" "w" wfW wfW rfl rfl rfl rfl

/-! ### C4: mutations never report CycleDetected -/

/-- C4: no mutation returns CycleDetected: an edge that closes a cycle
passes validation and is committed (fourth conjunct has no acyclicity
hypothesis), and the cycle is surfaced only by a later execution-order
query (last, concrete conjunct: `dbCyc` stores the committed 2-cycle). -/
theorem C4_no_cycle_check_on_mutation (db : DB) (wid nm sid s p : String)
    (descr : Option String) :
    ((add_dependency db wid s p).1 ≠ .error .cycleDetected) ∧
    ((create_workflow db wid nm).1 ≠ .error .cycleDetected) ∧
    ((add_step db wid sid descr).1 ≠ .error .cycleDetected) ∧
    (∀ wf st pr, findWorkflow db wid = some wf → s ≠ p →
      findStep db wf.id s = some st → findStep db wf.id p = some pr →
      findDep db st.id pr.id = none →
      add_dependency db wid s p =
        (.ok "dependency_added",
          { db with
            deps := db.deps ++ [⟨db.nextDepId, st.id, pr.id⟩],
            nextDepId := db.nextDepId + 1 })) ∧
    (get_execution_order dbCyc "w" = .error .cycleDetected) := by
  refine ⟨?_, ?_, ?_, fun wf st pr hwf hsp hst hpr hdep => by
    simp [add_dependency, hwf, hsp, hst, hpr, hdep], rfl⟩
  · unfold add_dependency
    rcases findWorkflow db wid with _ | wf <;> simp
    split
    · simp
    · rcases findStep db wf.id s with _ | st <;> rcases findStep db wf.id p with _ | pr <;> simp
      rcases findDep db st.id pr.id with _ | d <;> simp
  · unfold create_workflow
    rcases findWorkflow db wid with _ | wf <;> simp
  · unfold add_step
    rcases findWorkflow db wid with _ | wf <;> simp
    rcases findStep db wf.id sid with _ | st <;> simp

/-- Witness for C4: committing the edge that closes the 2-cycle in `dbAB`
(where `b` already depends on `a`) succeeds. -/
theorem C4_no_cycle_check_on_mutation_witness :
    add_dependency dbBA "w" "a" "b" =
      (.ok "dependency_added",
        { dbBA with
          deps := dbBA.deps ++ [⟨dbBA.nextDepId, stA.id, stB.id⟩],
          nextDepId := dbBA.nextDepId + 1 }) :=
  (C4_no_cycle_check_on_mutation dbBA "w" "n" "s" "a" "b" none).2.2.2.1 wfW stA stB rfl
    (by decide) rfl rfl rfl

/-! ### C7: duplicate-edge rejection is exact -/

/-- C7: AddDependency fails with EdgeAlreadyExists exactly when, after the
earlier checks pass, an edge with the identical ordered pair of endpoint
rows already exists in the store; in particular the reverse pair is not a
duplicate (second, concrete conjunct: with the edge for `b` depends on `a`
stored, the reverse request succeeds) and a duplicate request is rejected,
never silently ignored. -/
theorem C7_duplicate_edge_iff (db : DB) (wid s p : String) :
    ((add_dependency db wid s p).1 = .error .dependencyExists ↔
      ∃ wf st pr, findWorkflow db wid = some wf ∧ s ≠ p ∧
        findStep db wf.id s = some st ∧ findStep db wf.id p = some pr ∧
        ∃ d ∈ db.deps, d.step_id = st.id ∧ d.prerequisite_id = pr.id) ∧
    (add_dependency dbBA "w" "a" "b").1 = .ok "dependency_added" := by
  refine ⟨⟨fun h => ?_, fun h => ?_⟩, rfl⟩
  · rcases hwf : findWorkflow db wid with _ | wf
    · simp [add_dependency, hwf] at h
    · by_cases hsp : s = p
      · simp [add_dependency, hwf, hsp] at h
      · rcases hst : findStep db wf.id s with _ | st <;>
          rcases hpr : findStep db wf.id p with _ | pr
        · simp [add_dependency, hwf, hsp, hst, hpr] at h
        · simp [add_dependency, hwf, hsp, hst, hpr] at h
        · simp [add_dependency, hwf, hsp, hst, hpr] at h
        · rcases hdep : findDep db st.id pr.id with _ | d
          · simp [add_dependency, hwf, hsp, hst, hpr, hdep] at h
          · refine ⟨wf, st, pr, rfl, hsp, hst, hpr, d, List.mem_of_find?_eq_some hdep, ?_⟩
            have hpd := List.find?_some hdep
            simp at hpd
            exact ⟨hpd.1, hpd.2⟩
  · obtain ⟨wf, st, pr, hwf, hsp, hst, hpr, d, hd, hds, hdp⟩ := h
    have hdep : ∃ d0, findDep db st.id pr.id = some d0 := by
      have : (findDep db st.id pr.id).isSome := by
        unfold findDep
        rw [List.find?_isSome]
        exact ⟨d, hd, by simp [hds, hdp]⟩
      exact Option.isSome_iff_exists.mp this
    obtain ⟨d0, hd0⟩ := hdep
    simp [add_dependency, hwf, hsp, hst, hpr, hd0]

/-- Witness for C7: the stored pair (step `b`, prerequisite `a`) makes the
identical request a duplicate. -/
theorem C7_duplicate_edge_iff_witness :
    (add_dependency dbBA "w" "b" "a").1 = .error .dependencyExists :=
  (C7_duplicate_edge_iff dbBA "w" "b" "a").1.mpr
    ⟨wfW, stB, stA, rfl, by decide, rfl, rfl, depBA, by decide, rfl, rfl⟩

/-! ### C8: mutations are atomic and committed entities are visible -/

/-- C8: each mutation either fails with a typed error and leaves the store
exactly as it was, or commits the new entity, which is then visible to
subsequent reads (the corresponding lookup finds it). -/
theorem C8_atomic_mutations (db : DB) (wid nm sid s p : String) (descr : Option String) :
    ((∀ e, (create_workflow db wid nm).1 = .error e → (create_workflow db wid nm).2 = db) ∧
      (∀ r, (create_workflow db wid nm).1 = .ok r →
        (create_workflow db wid nm).2.workflows =
          db.workflows ++ [⟨db.nextWorkflowId, wid, nm⟩] ∧
        findWorkflow (create_workflow db wid nm).2 wid = some ⟨db.nextWorkflowId, wid, nm⟩)) ∧
    ((∀ e, (add_step db wid sid descr).1 = .error e → (add_step db wid sid descr).2 = db) ∧
      (∀ r wf, (add_step db wid sid descr).1 = .ok r → findWorkflow db wid = some wf →
        (add_step db wid sid descr).2.steps = db.steps ++ [⟨db.nextStepId, sid, descr, wf.id⟩] ∧
        findStep (add_step db wid sid descr).2 wf.id sid =
          some ⟨db.nextStepId, sid, descr, wf.id⟩)) ∧
    ((∀ e, (add_dependency db wid s p).1 = .error e → (add_dependency db wid s p).2 = db) ∧
      (∀ r wf st pr, (add_dependency db wid s p).1 = .ok r → findWorkflow db wid = some wf →
        findStep db wf.id s = some st → findStep db wf.id p = some pr →
        (add_dependency db wid s p).2.deps = db.deps ++ [⟨db.nextDepId, st.id, pr.id⟩] ∧
        findDep (add_dependency db wid s p).2 st.id pr.id =
          some ⟨db.nextDepId, st.id, pr.id⟩)) := by
  refine ⟨⟨?_, ?_⟩, ⟨?_, ?_⟩, ⟨?_, ?_⟩⟩
  · intro e he
    rcases hwf : findWorkflow db wid with _ | wf <;> simp [create_workflow, hwf] at he ⊢
  · intro r hr
    rcases hwf : findWorkflow db wid with _ | wf <;> simp [create_workflow, hwf] at hr ⊢
    have hfw : db.workflows.find? (fun w => decide (w.workflow_str_id = wid)) = none := hwf
    simp [findWorkflow, find?_append_of_none hfw, List.find?]
  · intro e he
    rcases hwf : findWorkflow db wid with _ | wf
    · simp [add_step, hwf]
    · rcases hst : findStep db wf.id sid with _ | st <;> simp [add_step, hwf, hst] at he ⊢
  · intro r wf hr hwf
    rcases hst : findStep db wf.id sid with _ | st <;> simp [add_step, hwf, hst] at hr ⊢
    have hfs : db.steps.find?
        (fun x => decide (x.workflow_id = wf.id) && decide (x.step_str_id = sid)) = none := hst
    simp [findStep, find?_append_of_none hfs, List.find?]
  · intro e he
    rcases hwf : findWorkflow db wid with _ | wf
    · simp [add_dependency, hwf]
    · by_cases hsp : s = p
      · simp [add_dependency, hwf, hsp]
      · rcases hst : findStep db wf.id s with _ | st <;>
          rcases hpr : findStep db wf.id p with _ | pr <;>
          simp [add_dependency, hwf, hsp, hst, hpr] at he ⊢
        rcases hdep : findDep db st.id pr.id with _ | d <;> simp [hdep] at he ⊢
  · intro r wf st pr hr hwf hst hpr
    by_cases hsp : s = p
    · simp [add_dependency, hwf, hsp] at hr
    · rcases hdep : findDep db st.id pr.id with _ | d
      · constructor <;> simp [add_dependency, hwf, hsp, hst, hpr, hdep]
        have hfd : db.deps.find?
            (fun x => decide (x.step_id = st.id) && decide (x.prerequisite_id = pr.id)) =
            none := hdep
        simp [findDep, find?_append_of_none hfd, List.find?]
      · simp [add_dependency, hwf, hsp, hst, hpr, hdep] at hr

/-- Witness for C8: a failing create leaves `dbW` untouched, and the step
committed into `dbW` is visible to the lookup afterwards. -/
theorem C8_atomic_mutations_witness :
    (create_workflow dbW "w" "X").2 = dbW ∧
    (add_step dbW "w" "a" none).2.steps = dbW.steps ++ [⟨1, "a", none, 1⟩] ∧
    findStep (add_step dbW "w" "a" none).2 1 "a" = some ⟨1, "a", none, 1⟩ := by
  refine ⟨(C8_atomic_mutations dbW "w" "X" "s" "x" "y" none).1.1 .workflowAlreadyExists rfl, ?_, ?_⟩
  · exact ((C8_atomic_mutations dbW "w" "X" "a" "x" "y" none).2.1.2 (1, "a", "step_added") wfW
      rfl rfl).1
  · exact ((C8_atomic_mutations dbW "w" "X" "a" "x" "y" none).2.1.2 (1, "a", "step_added") wfW
      rfl rfl).2

/-! ### C9: edge endpoints are same-workflow steps, and StepNotFound -/

/-- C9: every operation preserves the invariant that both endpoints of
every stored edge are steps of the same workflow (they existed when the
edge was created, since the successful branch looks both up in the target
workflow first), and AddDependency fails with StepNotFound when either
named step is absent from the target workflow. -/
theorem C9_dependency_endpoints (db : DB) (wid nm sid s p : String) (descr : Option String) :
    (DepInv db → DepInv (create_workflow db wid nm).2) ∧
    (DepInv db → DepInv (add_step db wid sid descr).2) ∧
    (DepInv db → DepInv (add_dependency db wid s p).2) ∧
    (∀ wf, findWorkflow db wid = some wf → s ≠ p →
      (findStep db wf.id s = none ∨ findStep db wf.id p = none) →
      (add_dependency db wid s p).1 = .error .stepNotFound) := by
  refine ⟨?_, ?_, ?_, ?_⟩
  · intro h
    rcases hwf : findWorkflow db wid with _ | wf <;>
      simp only [create_workflow, hwf] <;> exact h
  · intro h
    rcases hwf : findWorkflow db wid with _ | wf
    · simpa [add_step, hwf] using h
    · rcases hst : findStep db wf.id sid with _ | st
      · simp only [add_step, hwf, hst]
        intro d hd
        obtain ⟨s0, hs0, p0, hp0, hids⟩ := h d hd
        exact ⟨s0, List.mem_append_left _ hs0, p0, List.mem_append_left _ hp0, hids⟩
      · simpa [add_step, hwf, hst] using h
  · intro h
    rcases hwf : findWorkflow db wid with _ | wf
    · simpa [add_dependency, hwf] using h
    · by_cases hsp : s = p
      · simpa [add_dependency, hwf, hsp] using h
      · rcases hst : findStep db wf.id s with _ | st <;>
          rcases hpr : findStep db wf.id p with _ | pr
        · simpa [add_dependency, hwf, hsp, hst, hpr] using h
        · simpa [add_dependency, hwf, hsp, hst, hpr] using h
        · simpa [add_dependency, hwf, hsp, hst, hpr] using h
        · rcases hdep : findDep db st.id pr.id with _ | d0
          · simp only [add_dependency, hwf, hsp, hst, hpr, hdep, if_neg hsp]
            intro d hd
            rcases List.mem_append.mp hd with hd2 | hd2
            · obtain ⟨s0, hs0, p0, hp0, hids⟩ := h d hd2
              exact ⟨s0, hs0, p0, hp0, hids⟩
            · have hd3 : d = ⟨db.nextDepId, st.id, pr.id⟩ := by simpa using hd2
              subst hd3
              obtain ⟨hstm, hstw, _⟩ := findStep_workflow_id hst
              obtain ⟨hprm, hprw, _⟩ := findStep_workflow_id hpr
              exact ⟨st, hstm, pr, hprm, rfl, rfl, by rw [hstw, hprw]⟩
          · simpa [add_dependency, hwf, hsp, hst, hpr, hdep] using h
  · intro wf hwf hsp hmiss
    rcases hmiss with h | h
    · cases hpr : findStep db wf.id p <;> simp [add_dependency, hwf, hsp, h, hpr]
    · cases hst : findStep db wf.id s <;> simp [add_dependency, hwf, hsp, h, hst]

/-- Witness for C9: the invariant holds after committing the cycle edge
into `dbBA`, and a request naming a missing step fails with StepNotFound. -/
theorem C9_dependency_endpoints_witness :
    DepInv (add_dependency dbBA "w" "a" "b").2 ∧
    (add_dependency dbAB "w" "a" "zzz").1 = .error .stepNotFound :=
  ⟨(C9_dependency_endpoints dbBA "w" "n" "s" "a" "b" none).2.2.1 (by decide),
    (C9_dependency_endpoints dbAB "w" "n" "s" "a" "zzz" none).2.2.2 wfW rfl (by decide)
      (Or.inr rfl)⟩


/-! ### Lemmas about processNode -/

theorem processNode_snd (adjL : List String) : ∀ (queue : List String) (indeg : String → Int),
    adjL.Nodup → ∀ v,
      (processNode adjL queue indeg).2 v = indeg v - (if v ∈ adjL then 1 else 0) := by
  induction adjL with
  | nil => intro queue indeg _ v; simp [processNode]
  | cons nb rest ih =>
    intro queue indeg hnd v
    have hnb : nb ∉ rest := (List.nodup_cons.mp hnd).1
    rw [processNode]
    rw [ih _ _ (List.nodup_cons.mp hnd).2 v]
    by_cases hv : v = nb
    · subst hv
      simp [hnb]
    · simp [hv]

theorem processNode_fst (adjL : List String) : ∀ (queue : List String) (indeg : String → Int),
    adjL.Nodup →
      (processNode adjL queue indeg).1 = queue ++ adjL.filter (fun nb => decide (indeg nb = 1)) := by
  induction adjL with
  | nil => intro queue indeg _; simp [processNode]
  | cons nb rest ih =>
    intro queue indeg hnd
    have hnb : nb ∉ rest := (List.nodup_cons.mp hnd).1
    rw [processNode]
    rw [ih _ _ (List.nodup_cons.mp hnd).2]
    have hcong : rest.filter (fun x => decide ((if x = nb then indeg nb - 1 else indeg x) = 1)) =
        rest.filter (fun x => decide (indeg x = 1)) := by
      apply List.filter_congr
      intro x hx
      have hxnb : x ≠ nb := fun h => hnb (h ▸ hx)
      simp [hxnb]
    rw [hcong]
    by_cases h1 : indeg nb = 1
    · have hz : indeg nb - 1 = 0 := by omega
      simp [hz, h1, List.filter_cons]
    · have hz : ¬(indeg nb - 1 = 0) := by omega
      simp [hz, h1, List.filter_cons]

/-! ### Counting lemmas for the in-degree bookkeeping -/

theorem countP_split {α : Type} (l : List α) (p q : α → Bool) :
    l.countP p = l.countP (fun a => p a && q a) + l.countP (fun a => p a && !q a) := by
  induction l with
  | nil => simp
  | cons a t ih =>
    simp only [List.countP_cons, ih]
    cases hp : p a <;> cases hq : q a <;> simp <;> omega

theorem adj_mem_iff (edges : List (String × String)) (node v : String) :
    v ∈ adj edges node ↔ (node, v) ∈ edges := by
  constructor
  · intro h
    simp only [adj, List.mem_map, List.mem_filter] at h
    obtain ⟨e, ⟨hmem, he1⟩, he2⟩ := h
    have he1 : e.1 = node := of_decide_eq_true he1
    have : e = (node, v) := by
      cases e
      simp_all
    exact this ▸ hmem
  · intro h
    simp only [adj, List.mem_map, List.mem_filter]
    exact ⟨(node, v), ⟨h, by simp⟩, rfl⟩

theorem countP_pair_adj (edges : List (String × String)) (hnd : edges.Nodup) (node v : String) :
    edges.countP (fun e => decide (e.1 = node) && decide (e.2 = v)) =
      if v ∈ adj edges node then 1 else 0 := by
  induction edges with
  | nil => simp [adj]
  | cons e t ih =>
    have hnd2 : t.Nodup := (List.nodup_cons.mp hnd).2
    have hent : e ∉ t := (List.nodup_cons.mp hnd).1
    by_cases h1 : e.1 = node ∧ e.2 = v
    · have he : e = (node, v) := by cases e; simp_all
      have hmem : v ∈ adj (e :: t) node := (adj_mem_iff _ _ _).mpr (by simp [he])
      have hz : t.countP (fun e => decide (e.1 = node) && decide (e.2 = v)) = 0 := by
        rw [List.countP_eq_zero]
        intro a ha hp
        simp only [Bool.and_eq_true, decide_eq_true_eq] at hp
        have : a = (node, v) := by cases a; simp_all
        exact hent (by rw [he, ← this]; exact ha)
      simp [List.countP_cons, hz, hmem, h1.1, h1.2]
    · have hadj : v ∈ adj (e :: t) node ↔ v ∈ adj t node := by
        rw [adj_mem_iff, adj_mem_iff, List.mem_cons]
        constructor
        · rintro (h | h)
          · exact absurd (by rw [← h]; exact ⟨rfl, rfl⟩) h1
          · exact h
        · exact Or.inr
      have hp : (decide (e.1 = node) && decide (e.2 = v)) = false := by
        rcases Decidable.not_and_iff_or_not.mp h1 with h | h <;> simp [h]
      simp [List.countP_cons, hp, hadj, ih hnd2]

theorem edgesInto_append (edges : List (String × String)) (order : List String) (node : String)
    (hnode : node ∉ order) (v : String) :
    edgesInto edges (order ++ [node]) v =
      edgesInto edges order v -
        (edges.countP (fun e => decide (e.1 = node) && decide (e.2 = v)) : Int) := by
  have hsplit := countP_split edges (fun e => decide (e.2 = v) && decide (e.1 ∉ order))
    (fun e => decide (e.1 = node))
  have h1 : (fun (e : String × String) =>
      (decide (e.2 = v) && decide (e.1 ∉ order)) && decide (e.1 = node)) =
      (fun (e : String × String) => decide (e.1 = node) && decide (e.2 = v)) := by
    funext e
    by_cases ha : e.1 = node <;> by_cases hb : e.2 = v <;> simp [ha, hb, hnode]
  have h2 : (fun (e : String × String) =>
      (decide (e.2 = v) && decide (e.1 ∉ order)) && !decide (e.1 = node)) =
      (fun (e : String × String) => decide (e.2 = v) && decide (e.1 ∉ order ++ [node])) := by
    funext e
    by_cases ha : e.1 = node <;> by_cases hb : e.2 = v <;> by_cases hc : e.1 ∈ order <;>
      simp [ha, hb, hc, hnode]
  rw [h1, h2] at hsplit
  unfold edgesInto
  rw [hsplit]
  push_cast
  ring


/-! ### The Kahn loop invariant -/

theorem adj_nodup (edges : List (String × String)) (hednd : edges.Nodup) (u : String) :
    (adj edges u).Nodup := by
  unfold adj
  apply List.Nodup.map_on
  · intro x hx y hy hxy
    have hx1 : x.1 = u := of_decide_eq_true (List.mem_filter.mp hx).2
    have hy1 : y.1 = u := of_decide_eq_true (List.mem_filter.mp hy).2
    cases x; cases y; simp_all
  · exact hednd.filter _

theorem KInv_step (nodes : List String) (edges : List (String × String))
    (hednd : edges.Nodup) (hdst : ∀ e ∈ edges, e.2 ∈ nodes)
    (node : String) (rest : List String) (indeg : String → Int) (order : List String)
    (inv : KInv nodes edges (node :: rest) indeg order) :
    KInv nodes edges (processNode (adj edges node) rest indeg).1
      (processNode (adj edges node) rest indeg).2 (order ++ [node]) := by
  have hadjnd : (adj edges node).Nodup := adj_nodup edges hednd node
  have hfst := processNode_fst (adj edges node) rest indeg hadjnd
  have hsnd := processNode_snd (adj edges node) rest indeg hadjnd
  have hnodup0 := inv.nodup
  rw [List.nodup_append] at hnodup0
  obtain ⟨hordnd, hqnd, hdisj⟩ := hnodup0
  have hnodeOrd : node ∉ order := fun h => hdisj h (List.mem_cons_self _ _)
  have hnodeRest : node ∉ rest := (List.nodup_cons.mp hqnd).1
  have hrestnd : rest.Nodup := (List.nodup_cons.mp hqnd).2
  have hzero : indeg node = 0 := inv.qzero node (List.mem_cons_self _ _)
  have hInto0 : ∀ e ∈ edges, e.2 = node → e.1 ∈ order := by
    intro e he h2
    have h0 : edgesInto edges order node = 0 := (inv.deg node).symm.trans hzero
    unfold edgesInto at h0
    have h0n : edges.countP (fun e => decide (e.2 = node) && decide (e.1 ∉ order)) = 0 := by
      exact_mod_cast h0
    rw [List.countP_eq_zero] at h0n
    have hcontra := h0n e he
    by_contra hcon
    exact hcontra (by simp [h2, hcon])
  have hnonneg : ∀ v, 0 ≤ indeg v := by
    intro v
    rw [inv.deg v]
    unfold edgesInto
    positivity
  have hApos : ∀ v ∈ adj edges node, 1 ≤ indeg v := by
    intro v hv
    have hmem : (node, v) ∈ edges := (adj_mem_iff edges node v).mp hv
    have hpos : 0 < edges.countP (fun e => decide (e.2 = v) && decide (e.1 ∉ order)) := by
      rw [List.countP_pos_iff]
      exact ⟨(node, v), hmem, by simp [hnodeOrd]⟩
    have hdv := inv.deg v
    unfold edgesInto at hdv
    omega
  have hAnotq : ∀ v ∈ adj edges node, v ∉ node :: rest := by
    intro v hv hmem
    have h0 := inv.qzero v hmem
    have h1 := hApos v hv
    omega
  have hAnotord : ∀ v ∈ adj edges node, v ∉ order := by
    intro v hv hmem
    have h0 := inv.used v hmem
    have h1 := hApos v hv
    omega
  have hnewQmem : ∀ v, v ∈ (adj edges node).filter (fun nb => decide (indeg nb = 1)) ↔
      v ∈ adj edges node ∧ indeg v = 1 := by
    intro v; simp [List.mem_filter]
  refine ⟨?_, ?_, ?_, ?_, ?_, ?_, ?_⟩
  · rw [hfst]
    have hshape : (order ++ [node]) ++
        (rest ++ (adj edges node).filter (fun nb => decide (indeg nb = 1))) =
        (order ++ node :: rest) ++ (adj edges node).filter (fun nb => decide (indeg nb = 1)) := by
      simp
    rw [hshape]
    apply List.Nodup.append inv.nodup (hadjnd.filter _)
    intro v hv1 hv2
    have hva := (hnewQmem v).mp hv2
    rcases List.mem_append.mp hv1 with h | h
    · exact hAnotord v hva.1 h
    · exact hAnotq v hva.1 h
  · intro v hv
    rw [hfst] at hv
    rcases List.mem_append.mp hv with h | h
    · rcases List.mem_append.mp h with h | h
      · exact inv.subset v (List.mem_append_left _ h)
      · have hveq : v = node := by simpa using h
        subst hveq
        exact inv.subset v (List.mem_append_right _ (List.mem_cons_self _ _))
    · rcases List.mem_append.mp h with h | h
      · exact inv.subset v (List.mem_append_right _ (List.mem_cons_of_mem _ h))
      · have hva := (hnewQmem v).mp h
        exact hdst (node, v) ((adj_mem_iff edges node v).mp hva.1)
  · intro v
    rw [hsnd v, inv.deg v, edgesInto_append edges order node hnodeOrd v,
      countP_pair_adj edges hednd node v]
    by_cases hv : v ∈ adj edges node <;> simp [hv]
  · intro v hv
    rw [hfst] at hv
    rw [hsnd v]
    rcases List.mem_append.mp hv with h | h
    · have h0 := inv.qzero v (List.mem_cons_of_mem _ h)
      have hvA : v ∉ adj edges node := fun hvA => by have := hApos v hvA; omega
      simp [hvA, h0]
    · have hva := (hnewQmem v).mp h
      simp [hva.1, hva.2]
  · intro v hvn hvo hvq
    rw [hfst] at hvq
    rw [hsnd v]
    have hvo2 : v ∉ order := fun h => hvo (List.mem_append_left _ h)
    have hvnode : v ≠ node := fun h => hvo (List.mem_append_right _ (by simp [h]))
    have hvrest : v ∉ rest := fun h => hvq (List.mem_append_left _ h)
    have hvnew : v ∉ (adj edges node).filter (fun nb => decide (indeg nb = 1)) :=
      fun h => hvq (List.mem_append_right _ h)
    have hold : indeg v ≠ 0 := inv.pend v hvn hvo2 (by simp [hvnode, hvrest])
    by_cases hvA : v ∈ adj edges node
    · have h1 : indeg v ≠ 1 := fun h1 => hvnew ((hnewQmem v).mpr ⟨hvA, h1⟩)
      simp [hvA]
      omega
    · simp [hvA]
      omega
  · intro e he hin
    rcases List.mem_append.mp hin with h | h
    · obtain ⟨h1, hlt⟩ := inv.emitted e he h
      refine ⟨List.mem_append_left _ h1, ?_⟩
      rw [List.indexOf_append_of_mem h1, List.indexOf_append_of_mem h]
      exact hlt
    · have h2 : e.2 = node := by simpa using h
      have h1 : e.1 ∈ order := hInto0 e he h2
      refine ⟨List.mem_append_left _ h1, ?_⟩
      rw [List.indexOf_append_of_mem h1, h2, List.indexOf_append_of_not_mem hnodeOrd]
      have hlen := List.indexOf_lt_length.mpr h1
      simp [List.indexOf_cons_self]
      omega
  · intro v hv
    rw [hsnd v]
    rcases List.mem_append.mp hv with h | h
    · have := inv.used v h
      by_cases hvA : v ∈ adj edges node <;> simp [hvA] <;> omega
    · have hvn : v = node := by simpa using h
      subst hvn
      rw [hzero]
      split <;> omega

theorem KInv_init (nodes : List String) (edges : List (String × String))
    (hnodes : nodes.Nodup) :
    KInv nodes edges (nodes.filter (fun v => decide (indeg0 edges v = 0))) (indeg0 edges) [] := by
  have hdeg : ∀ v, indeg0 edges v = edgesInto edges [] v := by
    intro v
    unfold indeg0 edgesInto
    have hpred : (fun (e : String × String) => decide (e.2 = v) &&
        decide (e.1 ∉ ([] : List String))) = fun (e : String × String) => decide (e.2 = v) := by
      funext e
      simp
    rw [hpred]
  refine ⟨?_, ?_, hdeg, ?_, ?_, ?_, ?_⟩
  · simpa using hnodes.filter _
  · intro v hv
    simp only [List.nil_append] at hv
    exact (List.mem_filter.mp hv).1
  · intro v hv
    exact of_decide_eq_true (List.mem_filter.mp hv).2
  · intro v hvn _ hvq
    intro h0
    exact hvq (List.mem_filter.mpr ⟨hvn, by simp [h0]⟩)
  · intro e _ h
    exact absurd h (List.not_mem_nil _)
  · intro v hv
    exact absurd hv (List.not_mem_nil _)

theorem kahnLoop_inv (nodes : List String) (edges : List (String × String))
    (hednd : edges.Nodup) (hdst : ∀ e ∈ edges, e.2 ∈ nodes) :
    ∀ (fuel : Nat) (queue : List String) (indeg : String → Int) (order : List String),
      KInv nodes edges queue indeg order →
      nodes.length ≤ fuel + order.length →
      ∃ indeg2, KInv nodes edges [] indeg2 (kahnLoop edges fuel queue indeg order) := by
  intro fuel
  induction fuel with
  | zero =>
    intro queue indeg order inv hfuel
    have hsub : List.Subperm (order ++ queue) nodes :=
      List.subperm_of_subset inv.nodup (fun v hv => inv.subset v hv)
    have hlen := hsub.length_le
    rw [List.length_append] at hlen
    have hq : queue = [] := List.length_eq_zero.mp (by omega)
    subst hq
    exact ⟨indeg, inv⟩
  | succ fuel ih =>
    intro queue indeg order inv hfuel
    cases queue with
    | nil => exact ⟨indeg, inv⟩
    | cons node rest =>
      have hstep := KInv_step nodes edges hednd hdst node rest indeg order inv
      have hfuel2 : nodes.length ≤ fuel + (order ++ [node]).length := by
        rw [List.length_append]
        simp only [List.length_singleton]
        omega
      obtain ⟨indeg2, hinv2⟩ := ih _ _ _ hstep hfuel2
      exact ⟨indeg2, hinv2⟩

theorem execOrder_inv (nodes : List String) (edges : List (String × String))
    (hnodes : nodes.Nodup) (hednd : edges.Nodup) (hdst : ∀ e ∈ edges, e.2 ∈ nodes) :
    ∃ indeg2, KInv nodes edges [] indeg2 (execOrder nodes edges) :=
  kahnLoop_inv nodes edges hednd hdst nodes.length _ _ []
    (KInv_init nodes edges hnodes) (by simp)


/-! ### Consequences of the final invariant -/

theorem KInv_transGen_lt (nodes : List String) (edges : List (String × String))
    (indeg2 : String → Int) (res : List String) (inv : KInv nodes edges [] indeg2 res) :
    ∀ u v, Relation.TransGen (edgeRel edges) u v → v ∈ res →
      u ∈ res ∧ res.indexOf u < res.indexOf v := by
  intro u v h
  induction h with
  | single h => exact fun hv => inv.emitted _ h hv
  | tail hab hbc ih =>
    intro hc
    obtain ⟨hb, hlt1⟩ := inv.emitted _ hbc hc
    obtain ⟨hu, hlt2⟩ := ih hb
    exact ⟨hu, hlt2.trans hlt1⟩

theorem execOrder_complete (nodes : List String) (edges : List (String × String))
    (hnodes : nodes.Nodup) (hednd : edges.Nodup)
    (hsrc : ∀ e ∈ edges, e.1 ∈ nodes) (hdst : ∀ e ∈ edges, e.2 ∈ nodes)
    (hacyc : ¬ ∃ v, Relation.TransGen (edgeRel edges) v v) :
    ∀ v ∈ nodes, v ∈ execOrder nodes edges := by
  by_contra hcon
  push_neg at hcon
  obtain ⟨v0, hv0n, hv0r⟩ := hcon
  obtain ⟨indeg2, inv⟩ := execOrder_inv nodes edges hnodes hednd hdst
  have hpred : ∀ v : String, ∃ u : String,
      (v ∈ nodes ∧ v ∉ execOrder nodes edges) →
        ((u ∈ nodes ∧ u ∉ execOrder nodes edges) ∧ edgeRel edges u v) := by
    intro v
    by_cases hv : v ∈ nodes ∧ v ∉ execOrder nodes edges
    · have hne : indeg2 v ≠ 0 := inv.pend v hv.1 hv.2 (List.not_mem_nil v)
      rw [inv.deg v] at hne
      unfold edgesInto at hne
      have hpos : 0 < edges.countP
          (fun e => decide (e.2 = v) && decide (e.1 ∉ execOrder nodes edges)) := by
        omega
      obtain ⟨e, hemem, hep⟩ := List.countP_pos_iff.mp hpos
      simp only [Bool.and_eq_true, decide_eq_true_eq] at hep
      refine ⟨e.1, fun _ => ⟨⟨hsrc e hemem, hep.2⟩, ?_⟩⟩
      have hev : (e.1, v) = e := by
        obtain ⟨e1, e2⟩ := e
        simp only [Prod.mk.injEq]
        exact ⟨trivial, hep.1.symm⟩
      show (e.1, v) ∈ edges
      rw [hev]
      exact hemem
    · exact ⟨v, fun h => absurd h hv⟩
  choose f hf using hpred
  have hgS : ∀ n, f^[n] v0 ∈ nodes ∧ f^[n] v0 ∉ execOrder nodes edges := by
    intro n
    induction n with
    | zero => exact ⟨hv0n, hv0r⟩
    | succ n ihn =>
      rw [Function.iterate_succ_apply']
      exact (hf _ ihn).1
  have hedge : ∀ n, edgeRel edges (f^[n + 1] v0) (f^[n] v0) := by
    intro n
    rw [Function.iterate_succ_apply']
    exact (hf _ (hgS n)).2
  have hchain : ∀ d i, Relation.TransGen (edgeRel edges) (f^[i + d + 1] v0) (f^[i] v0) := by
    intro d
    induction d with
    | zero => intro i; exact Relation.TransGen.single (hedge i)
    | succ d ihd =>
      intro i
      have h1 : edgeRel edges (f^[i + d + 1 + 1] v0) (f^[i + d + 1] v0) := hedge (i + d + 1)
      have h2 := ihd i
      rw [show i + (d + 1) + 1 = i + d + 1 + 1 from by omega]
      exact Relation.TransGen.head h1 h2
  set S : Finset String := (nodes.filter
    (fun x => decide (x ∉ execOrder nodes edges))).toFinset with hS
  have hmaps : ∀ k ∈ Finset.range (S.card + 1), f^[k] v0 ∈ S := by
    intro k _
    rw [hS, List.mem_toFinset, List.mem_filter]
    exact ⟨(hgS k).1, by simp [(hgS k).2]⟩
  have hcard : S.card < (Finset.range (S.card + 1)).card := by simp
  obtain ⟨i, hi, j, hj, hij, hgij⟩ :=
    Finset.exists_ne_map_eq_of_card_lt_of_maps_to hcard hmaps
  have hmain : ∀ a b : Nat, a < b → f^[a] v0 = f^[b] v0 → False := by
    intro a b hab heq
    have hc := hchain (b - a - 1) a
    rw [show a + (b - a - 1) + 1 = b from by omega] at hc
    rw [← heq] at hc
    exact hacyc ⟨f^[a] v0, hc⟩
  rcases Nat.lt_trichotomy i j with h | h | h
  · exact hmain i j h hgij
  · exact hij h
  · exact hmain j i h hgij.symm

theorem execOrder_short_of_cycle (nodes : List String) (edges : List (String × String))
    (hnodes : nodes.Nodup) (hednd : edges.Nodup) (hdst : ∀ e ∈ edges, e.2 ∈ nodes)
    (hcyc : ∃ v, Relation.TransGen (edgeRel edges) v v) :
    (execOrder nodes edges).length ≠ nodes.length := by
  obtain ⟨v, hv⟩ := hcyc
  obtain ⟨indeg2, inv⟩ := execOrder_inv nodes edges hnodes hednd hdst
  have hvres : v ∉ execOrder nodes edges := by
    intro hin
    have := (KInv_transGen_lt nodes edges indeg2 _ inv v v hv hin).2
    omega
  have hvn : v ∈ nodes := by
    cases hv with
    | single h => exact hdst _ h
    | tail hab hbc => exact hdst _ hbc
  intro hlen
  have hresnd : (execOrder nodes edges).Nodup := by simpa using inv.nodup
  have hsub : List.Subperm (execOrder nodes edges) nodes :=
    List.subperm_of_subset hresnd
      (fun x hx => inv.subset x (by simpa using hx))
  have hperm := hsub.perm_of_length_le (le_of_eq hlen.symm)
  exact hvres (hperm.mem_iff.mpr hvn)


/-! ### From the store constraints to the projected graph -/

theorem nodup_filterMap_on {α β : Type} (f : α → Option β) :
    ∀ (l : List α), l.Nodup →
      (∀ a ∈ l, ∀ b ∈ l, ∀ c, f a = some c → f b = some c → a = b) →
      (l.filterMap f).Nodup := by
  intro l
  induction l with
  | nil => intro _ _; simp
  | cons a t ih =>
    intro hl hinj
    rw [List.filterMap_cons]
    have hat : a ∉ t := (List.nodup_cons.mp hl).1
    have ht : t.Nodup := (List.nodup_cons.mp hl).2
    have hinj2 : ∀ x ∈ t, ∀ y ∈ t, ∀ c, f x = some c → f y = some c → x = y :=
      fun x hx y hy c h1 h2 =>
        hinj x (List.mem_cons_of_mem _ hx) y (List.mem_cons_of_mem _ hy) c h1 h2
    cases hfa : f a with
    | none => exact ih ht hinj2
    | some c =>
      rw [List.nodup_cons]
      refine ⟨?_, ih ht hinj2⟩
      intro hc
      obtain ⟨b, hb, hfb⟩ := List.mem_filterMap.mp hc
      have hab : a = b :=
        hinj a (List.mem_cons_self _ _) b (List.mem_cons_of_mem _ hb) c hfa hfb
      exact hat (hab ▸ hb)

theorem stepIdsOf_nodup (db : DB) (wf : Workflow) (hSI : StoreInv db) :
    (stepIdsOf db wf).Nodup := by
  obtain ⟨hidnd, hpair, hdnd, hDI⟩ := hSI
  have hsub : List.Sublist (wfSteps db wf) db.steps := List.filter_sublist _
  have hpair2 : ((wfSteps db wf).map (fun s => (s.step_str_id, s.workflow_id))).Nodup :=
    hpair.sublist (hsub.map _)
  unfold stepIdsOf
  apply List.Nodup.map_on
  · intro x hx y hy hxy
    have hxw : x.workflow_id = wf.id := of_decide_eq_true (List.mem_filter.mp hx).2
    have hyw : y.workflow_id = wf.id := of_decide_eq_true (List.mem_filter.mp hy).2
    refine List.inj_on_of_nodup_map hpair2 hx hy ?_
    simp only [Prod.mk.injEq]
    exact ⟨hxy, by rw [hxw, hyw]⟩
  · exact List.Nodup.of_map _ hpair2

theorem prereq_resolved (db : DB) (hSI : StoreInv db) {d : Dependency} (hd : d ∈ db.deps)
    {st : Step} (hst : st ∈ db.steps) (hds : d.step_id = st.id) {p : Step}
    (hp : stepById db d.prerequisite_id = some p) :
    p ∈ db.steps ∧ p.id = d.prerequisite_id ∧ p.workflow_id = st.workflow_id := by
  obtain ⟨hidnd, hpair, hdnd, hDI⟩ := hSI
  obtain ⟨hpm, hpid⟩ := stepById_spec hp
  obtain ⟨s0, hs0, p0, hp0, hs0id, hp0id, hsw⟩ := hDI d hd
  have hs0st : s0 = st := List.inj_on_of_nodup_map hidnd hs0 hst (by rw [hs0id, hds])
  have hpp0 : p = p0 := List.inj_on_of_nodup_map hidnd hpm hp0 (by rw [hpid, hp0id])
  refine ⟨hpm, hpid, ?_⟩
  rw [hpp0, ← hs0st]
  exact hsw.symm

theorem mem_edgesOfStep {db : DB} {st : Step} {e : String × String} :
    e ∈ edgesOfStep db st ↔ ∃ d ∈ db.deps, d.step_id = st.id ∧
      ∃ p, stepById db d.prerequisite_id = some p ∧ e = (p.step_str_id, st.step_str_id) := by
  unfold edgesOfStep stepPrereqDeps
  rw [List.mem_filterMap]
  constructor
  · rintro ⟨d, hd, hmap⟩
    rw [Option.map_eq_some'] at hmap
    obtain ⟨p, hp, hpe⟩ := hmap
    have hdm := List.mem_filter.mp hd
    exact ⟨d, hdm.1, of_decide_eq_true hdm.2, p, hp, hpe.symm⟩
  · rintro ⟨d, hd, hds, p, hp, hpe⟩
    refine ⟨d, List.mem_filter.mpr ⟨hd, by simp [hds]⟩, ?_⟩
    rw [hp]
    simp [hpe]

theorem edgesOfStep_snd {db : DB} {st : Step} {e : String × String}
    (h : e ∈ edgesOfStep db st) : e.2 = st.step_str_id := by
  obtain ⟨d, hd, hds, p, hp, hpe⟩ := mem_edgesOfStep.mp h
  rw [hpe]

theorem edgesOfStep_nodup (db : DB) (hSI : StoreInv db) (st : Step) (hst : st ∈ db.steps) :
    (edgesOfStep db st).Nodup := by
  obtain ⟨hidnd, hpair, hdnd, hDI⟩ := hSI
  unfold edgesOfStep
  apply nodup_filterMap_on
  · exact (List.Nodup.of_map _ hdnd).filter _
  · intro d1 hd1 d2 hd2 c h1 h2
    rw [Option.map_eq_some'] at h1 h2
    obtain ⟨p1, hp1, hc1⟩ := h1
    obtain ⟨p2, hp2, hc2⟩ := h2
    have hd1m := List.mem_filter.mp hd1
    have hd2m := List.mem_filter.mp hd2
    have hd1s : d1.step_id = st.id := of_decide_eq_true hd1m.2
    have hd2s : d2.step_id = st.id := of_decide_eq_true hd2m.2
    have r1 := prereq_resolved db ⟨hidnd, hpair, hdnd, hDI⟩ hd1m.1 hst hd1s hp1
    have r2 := prereq_resolved db ⟨hidnd, hpair, hdnd, hDI⟩ hd2m.1 hst hd2s hp2
    have hstr : p1.step_str_id = p2.step_str_id := by
      have := hc1.trans hc2.symm
      simpa using this
    have hp12 : p1 = p2 := by
      refine List.inj_on_of_nodup_map hpair r1.1 r2.1 ?_
      simp only [Prod.mk.injEq]
      exact ⟨hstr, by rw [r1.2.2, r2.2.2]⟩
    refine List.inj_on_of_nodup_map hdnd hd1m.1 hd2m.1 ?_
    simp only [Prod.mk.injEq]
    exact ⟨by rw [hd1s, hd2s], by rw [← r1.2.1, ← r2.2.1, hp12]⟩

theorem mem_edgesFromSteps {db : DB} {e : String × String} :
    ∀ {sts : List Step}, e ∈ edgesFromSteps db sts ↔ ∃ st ∈ sts, e ∈ edgesOfStep db st := by
  intro sts
  induction sts with
  | nil => simp [edgesFromSteps]
  | cons st rest ih => simp [edgesFromSteps, ih]

theorem edgesFromSteps_nodup (db : DB) (hSI : StoreInv db) :
    ∀ (sts : List Step), (∀ s ∈ sts, s ∈ db.steps) →
      (sts.map (fun s => s.step_str_id)).Nodup → (edgesFromSteps db sts).Nodup := by
  intro sts
  induction sts with
  | nil => intro _ _; simp [edgesFromSteps]
  | cons st rest ih =>
    intro hsub hstr
    rw [List.map_cons, List.nodup_cons] at hstr
    rw [edgesFromSteps]
    apply List.Nodup.append
    · exact edgesOfStep_nodup db hSI st (hsub st (List.mem_cons_self _ _))
    · exact ih (fun s hs => hsub s (List.mem_cons_of_mem _ hs)) hstr.2
    · intro e he1 he2
      have h2 : e.2 = st.step_str_id := edgesOfStep_snd he1
      obtain ⟨st2, hst2, hest2⟩ := mem_edgesFromSteps.mp he2
      have h3 : e.2 = st2.step_str_id := edgesOfStep_snd hest2
      have heq : st.step_str_id = st2.step_str_id := by rw [← h2, h3]
      exact hstr.1 (heq ▸ List.mem_map_of_mem _ hst2)

theorem buildEdges_nodup (db : DB) (wf : Workflow) (hSI : StoreInv db) :
    (buildEdges db wf).Nodup :=
  edgesFromSteps_nodup db hSI (wfSteps db wf)
    (fun _ hs => List.mem_of_mem_filter hs) (stepIdsOf_nodup db wf hSI)

theorem buildEdges_dst (db : DB) (wf : Workflow) {e : String × String}
    (he : e ∈ buildEdges db wf) : e.2 ∈ stepIdsOf db wf := by
  obtain ⟨st, hst, hest⟩ := mem_edgesFromSteps.mp he
  rw [edgesOfStep_snd hest]
  exact List.mem_map_of_mem _ hst

theorem buildEdges_src (db : DB) (wf : Workflow) (hSI : StoreInv db) {e : String × String}
    (he : e ∈ buildEdges db wf) : e.1 ∈ stepIdsOf db wf := by
  obtain ⟨st, hst, hest⟩ := mem_edgesFromSteps.mp he
  obtain ⟨d, hd, hds, p, hp, hpe⟩ := mem_edgesOfStep.mp hest
  have hstm : st ∈ db.steps := List.mem_of_mem_filter hst
  have hr := prereq_resolved db hSI hd hstm hds hp
  have hstw : st.workflow_id = wf.id := of_decide_eq_true (List.mem_filter.mp hst).2
  have hpw : p ∈ wfSteps db wf := List.mem_filter.mpr ⟨hr.1, by simp [hr.2.2, hstw]⟩
  rw [hpe]
  exact List.mem_map_of_mem _ hpw


/-! ### C1: acyclic graphs yield a complete topological order -/

/-- C1: for every well-formed store and workflow whose projected dependency
graph is acyclic, the execution-order query succeeds with a sequence that
is a permutation of the workflow step ids (hence contains every step,
including isolated ones, exactly once) and in which every prerequisite is
placed before each step that depends on it. -/
theorem C1_acyclic_topological (db : DB) (wid : String) (wf : Workflow)
    (hSI : StoreInv db) (hwf : findWorkflow db wid = some wf)
    (hacyc : ¬ ∃ v, Relation.TransGen (edgeRel (buildEdges db wf)) v v) :
    ∃ ord, get_execution_order db wid = .ok ord ∧
      ord.Perm (stepIdsOf db wf) ∧
      (∀ sid ∈ stepIdsOf db wf, ord.count sid = 1) ∧
      (∀ e ∈ buildEdges db wf, ord.indexOf e.1 < ord.indexOf e.2) := by
  have hnodes := stepIdsOf_nodup db wf hSI
  have hednd := buildEdges_nodup db wf hSI
  have hdst : ∀ e ∈ buildEdges db wf, e.2 ∈ stepIdsOf db wf :=
    fun e he => buildEdges_dst db wf he
  have hsrc : ∀ e ∈ buildEdges db wf, e.1 ∈ stepIdsOf db wf :=
    fun e he => buildEdges_src db wf hSI he
  obtain ⟨indeg2, inv⟩ := execOrder_inv (stepIdsOf db wf) (buildEdges db wf) hnodes hednd hdst
  have hcompl :=
    execOrder_complete (stepIdsOf db wf) (buildEdges db wf) hnodes hednd hsrc hdst hacyc
  have hresnd : (execOrder (stepIdsOf db wf) (buildEdges db wf)).Nodup := by
    simpa using inv.nodup
  have hressub : execOrder (stepIdsOf db wf) (buildEdges db wf) ⊆ stepIdsOf db wf :=
    fun v hv => inv.subset v (by simpa using hv)
  have hperm : (execOrder (stepIdsOf db wf) (buildEdges db wf)).Perm (stepIdsOf db wf) :=
    (List.subperm_of_subset hresnd hressub).antisymm
      (List.subperm_of_subset hnodes (fun v hv => hcompl v hv))
  have hlen := hperm.length_eq
  refine ⟨execOrder (stepIdsOf db wf) (buildEdges db wf), ?_, hperm, ?_, ?_⟩
  · simp [get_execution_order, hwf, hlen]
  · intro sid hs
    rw [hperm.count_eq]
    exact List.count_eq_one_of_mem hnodes hs
  · intro e he
    exact (inv.emitted e he (hcompl e.2 (hdst e he))).2

theorem dbBA_edges_eq : buildEdges dbBA wfW = [("a", "b")] := rfl

theorem dbBA_no_cycle : ¬ ∃ v, Relation.TransGen (edgeRel (buildEdges dbBA wfW)) v v := by
  have hstep : ∀ x y, Relation.TransGen (edgeRel (buildEdges dbBA wfW)) x y →
      x = "a" ∧ y = "b" := by
    intro x y h
    induction h with
    | single h =>
      have h2 := h
      unfold edgeRel at h2
      rw [dbBA_edges_eq] at h2
      simpa using h2
    | tail hab hbc ih =>
      refine ⟨ih.1, ?_⟩
      have h2 := hbc
      unfold edgeRel at h2
      rw [dbBA_edges_eq] at h2
      simp at h2
      exact h2.2
  rintro ⟨v, hv⟩
  obtain ⟨h1, h2⟩ := hstep v v hv
  rw [h1] at h2
  exact absurd h2 (by decide)

/-- Witness for C1: `dbBA` (steps `a`, `b`, with `b` depending on `a`)
has an acyclic graph, and the query yields a full topological order. -/
theorem C1_acyclic_topological_witness :
    ∃ ord, get_execution_order dbBA "w" = .ok ord ∧
      ord.Perm (stepIdsOf dbBA wfW) ∧
      (∀ sid ∈ stepIdsOf dbBA wfW, ord.count sid = 1) ∧
      (∀ e ∈ buildEdges dbBA wfW, ord.indexOf e.1 < ord.indexOf e.2) :=
  C1_acyclic_topological dbBA "w" wfW (by decide) rfl dbBA_no_cycle

/-! ### C2: cyclic graphs yield CycleDetected, full Kahn output is returned -/

/-- C2: for every well-formed store and workflow whose projected graph has
a cycle, the execution-order query returns CycleDetected and no partial
order; conversely, whenever the Kahn output covers every step, exactly
that output is returned as the execution order. -/
theorem C2_cycle_detected (db : DB) (wid : String) (wf : Workflow)
    (hSI : StoreInv db) (hwf : findWorkflow db wid = some wf) :
    ((∃ v, Relation.TransGen (edgeRel (buildEdges db wf)) v v) →
      get_execution_order db wid = .error .cycleDetected) ∧
    ((execOrder (stepIdsOf db wf) (buildEdges db wf)).length = (stepIdsOf db wf).length →
      get_execution_order db wid = .ok (execOrder (stepIdsOf db wf) (buildEdges db wf))) := by
  constructor
  · intro hcyc
    have hnodes := stepIdsOf_nodup db wf hSI
    have hednd := buildEdges_nodup db wf hSI
    have hdst : ∀ e ∈ buildEdges db wf, e.2 ∈ stepIdsOf db wf :=
      fun e he => buildEdges_dst db wf he
    have hne :=
      execOrder_short_of_cycle (stepIdsOf db wf) (buildEdges db wf) hnodes hednd hdst hcyc
    simp [get_execution_order, hwf, hne]
  · intro hlen
    simp [get_execution_order, hwf, hlen]

theorem dbCyc_edges_eq : buildEdges dbCyc wfW = [("b", "a"), ("a", "b")] := rfl

theorem dbCyc_cycle : ∃ v, Relation.TransGen (edgeRel (buildEdges dbCyc wfW)) v v := by
  have h1 : edgeRel (buildEdges dbCyc wfW) "a" "b" := by
    show ("a", "b") ∈ buildEdges dbCyc wfW
    rw [dbCyc_edges_eq]
    simp
  have h2 : edgeRel (buildEdges dbCyc wfW) "b" "a" := by
    show ("b", "a") ∈ buildEdges dbCyc wfW
    rw [dbCyc_edges_eq]
    simp
  exact ⟨"a", Relation.TransGen.head h1 (Relation.TransGen.single h2)⟩

/-- Witness for C2: the stored 2-cycle in `dbCyc` makes the query report
CycleDetected. -/
theorem C2_cycle_detected_witness :
    get_execution_order dbCyc "w" = .error .cycleDetected :=
  (C2_cycle_detected dbCyc "w" wfW (by decide) rfl).1 dbCyc_cycle


end WorkflowApi
